import Mathlib

/-!
Verification of the markdown page component of the-almanac-of-codecraft
(src/src/src/components/Page.vue, latest component version).

The JavaScript source is shallowly embedded: every stateful routine is a
pure Lean function on an explicit state value, DOM element identity is an
explicit tag, and the external collaborators (fetch, the marked renderer)
are parameters or explicit result values.
-/

/-- Whitespace characters matched by a JavaScript regular-expression class
of whitespace and trimmed by trim: space, tab, line feed, vertical tab,
form feed, carriage return and no-break space. -/
def jsIsSpace (c : Char) : Bool :=
  c = ' ' || c = '\t' || c = '\n' || c = Char.ofNat 11 || c = Char.ofNat 12 ||
  c = '\r' || c = Char.ofNat 0xA0

/-- Line terminators, which the dot of a JavaScript regular expression never
matches. -/
def jsLineTerm (c : Char) : Bool :=
  c = '\n' || c = '\r' || c = Char.ofNat 0x2028 || c = Char.ofNat 0x2029

/-- JavaScript String.prototype.trim on a list of characters. -/
def jsTrimList (cs : List Char) : List Char :=
  ((cs.dropWhile jsIsSpace).reverse.dropWhile jsIsSpace).reverse

/-- JavaScript String.prototype.trim. -/
def jsTrim (s : String) : String :=
  String.mk (jsTrimList s.toList)

/-- One entry of the document index, as pushed by generate_index in
Page.vue: the dotted hierarchical id, the heading level, the trimmed title
and the active flag driven by the viewport tracker. -/
structure HeadingRecord where
  id : String
  level : Nat
  title : String
  is_active : Bool
deriving DecidableEq, Repr

/-- The dotted id string built by heading_levels.slice(0, level).join(".")
in generate_index: decimal representations joined by dots. -/
def joinIds (parts : List Nat) : String :=
  String.intercalate "." (parts.map Nat.repr)

/-- Does the character list start with a whitespace character, as the
mandatory whitespace after the hash characters requires? -/
def head_is_space (cs : List Char) : Bool :=
  match cs with
  | c :: _ => jsIsSpace c
  | [] => false

/-- The test line.match of generate_index against the pattern of one to six
hash characters, whitespace, then the captured title. A line matches when
it starts with at most six hash characters immediately followed by a
whitespace character; the captured title is the rest of the line up to a
line terminator, which generate_index then trims. Returns the heading
level (the number of hash characters) and the trimmed title. -/
def parse_heading (line : String) : Option (Nat × String) :=
  let cs := line.toList
  let hashes := cs.takeWhile (fun c => c = '#')
  let level := hashes.length
  let rest := cs.drop level
  if 1 ≤ level ∧ level ≤ 6 ∧ head_is_space rest = true then
    some (level,
      String.mk (jsTrimList ((rest.dropWhile jsIsSpace).takeWhile (fun c => !jsLineTerm c))))
  else
    none

/-- Counter update of generate_index on a heading of the given level:
heading_levels[level-1] is incremented and every deeper counter is reset
to zero. -/
def bump_levels (levels : List Nat) (level : Nat) : List Nat :=
  levels.take (level - 1) ++ [levels.getD (level - 1) 0 + 1] ++
    List.replicate (levels.length - level) 0

/-- One line of the forEach loop of generate_index: state is the pair of
the heading_levels counter array and the records pushed so far. -/
def scan_step (st : List Nat × List HeadingRecord) (line : String) :
    List Nat × List HeadingRecord :=
  match parse_heading line with
  | some (level, title) =>
    let levels := bump_levels st.1 level
    let id := joinIds (levels.take level)
    (levels, st.2 ++ [{ id := id, level := level, title := title, is_active := false }])
  | none => st

/-- JavaScript String.prototype.split with a one-character separator, on
lists of characters; the empty string splits to one empty piece. -/
def js_split (sep : Char) : List Char → List (List Char)
  | [] => [[]]
  | c :: rest =>
    if c = sep then [] :: js_split sep rest
    else
      match js_split sep rest with
      | l :: ls => (c :: l) :: ls
      | [] => [[c]]

/-- generate_index of Page.vue: split the markdown on newlines, scan every
line, and collect the heading records in document order. -/
def generate_index (markdown : String) : List HeadingRecord :=
  (((js_split '\n' markdown.toList).map String.mk).foldl scan_step
    ([0, 0, 0, 0, 0, 0], [])).2

/-- A DOM heading element observed by the viewport tracker: an element
identity tag and the id attribute emitted by the renderer. Two distinct
elements can carry the same id attribute. -/
structure Elem where
  eid : Nat
  id : String
deriving DecidableEq, Repr

/-- An intersection-observer entry: the observed element and whether the
event reports it entering (true) or leaving (false) the viewport. The
working set visible_entries of Page.vue stores these entry values. -/
structure OEntry where
  target : Elem
  isIntersecting : Bool
deriving DecidableEq, Repr

/-- JavaScript Number on a string of decimal digits, as used on the pieces
of id.split in onIntersectionChange. The empty piece maps to 0, matching
Number of the empty string; the dotted ids in play only have digit
pieces. -/
def digits_val (cs : List Char) : Nat :=
  cs.foldl (fun n c => n * 10 + (c.toNat - '0'.toNat)) 0

/-- id.split on dots mapped over Number: the dotted id as numeric parts. -/
def id_parts (s : String) : List Nat :=
  (js_split '.' s.toList).map digits_val

/-- The comparator body of the sort in onIntersectionChange: compare part
by part from the left, a missing part counting as 0; the first unequal
pair of parts decides. -/
def cmpParts : List Nat → List Nat → Ordering
  | [], bs => if bs.all (fun b => b = 0) then Ordering.eq else Ordering.lt
  | a :: as, [] => if (a :: as).all (fun b => b = 0) then Ordering.eq else Ordering.gt
  | a :: as, b :: bs =>
    if a < b then Ordering.lt
    else if b < a then Ordering.gt
    else cmpParts as bs

/-- The comparator of onIntersectionChange as a weak order on entries: a
sorts no later than b when the comparator does not answer greater. -/
def entry_le (a b : OEntry) : Bool :=
  match cmpParts (id_parts a.target.id) (id_parts b.target.id) with
  | Ordering.gt => false
  | _ => true

def EntryLe (a b : OEntry) : Prop := entry_le a b = true

instance : DecidableRel EntryLe := fun a b => instDecidableEqBool (entry_le a b) true

/-- The entries.forEach loop of onIntersectionChange over the working set
visible_entries: an entering entry is pushed, a leaving entry removes
every working-set entry whose target id string equals the leaving target
id string. -/
def update_visible (visible : List OEntry) (entries : List OEntry) : List OEntry :=
  entries.foldl
    (fun vs entry =>
      if entry.isIntersecting then vs ++ [entry]
      else vs.filter (fun e => e.target.id != entry.target.id))
    visible

/-- The working-set update as the specification words it, stated for
comparison with update_visible: membership tracked by element identity, so
a leaving element removes exactly the entries of that element. -/
def update_visible_by_identity (visible : List OEntry) (entries : List OEntry) :
    List OEntry :=
  entries.foldl
    (fun vs entry =>
      if entry.isIntersecting then vs ++ [entry]
      else vs.filter (fun e => e.target != entry.target))
    visible

/-- The in-place sort of visible_entries: a stable sort under the
comparator, as JavaScript Array.prototype.sort guarantees. -/
def sort_visible (vs : List OEntry) : List OEntry :=
  vs.insertionSort EntryLe

/-- The tail of onIntersectionChange: the first entry of the sorted working
set is the active one; an empty working set leaves the index untouched;
otherwise every record's is_active flag is rewritten by comparing its id
with the active target id. -/
def resolve_active (visible : List OEntry) (idx : List HeadingRecord) :
    List HeadingRecord :=
  match (sort_visible visible).head? with
  | none => idx
  | some active_entry =>
    idx.map (fun item => { item with is_active := active_entry.target.id == item.id })

/-- The mutable state touched by onIntersectionChange. -/
structure TrackerState where
  visible_entries : List OEntry
  index : List HeadingRecord
deriving DecidableEq, Repr

/-- One invocation of onIntersectionChange on a batch of observer
entries. -/
def onIntersectionChange (st : TrackerState) (entries : List OEntry) : TrackerState :=
  let vs := update_visible st.visible_entries entries
  { visible_entries := vs, index := resolve_active vs st.index }

/-- The heading markup emitted by the renderer override of load_file. -/
def mk_heading (level : Nat) (id text : String) : String :=
  "<h" ++ Nat.repr level ++ " id=\"" ++ id ++ "\">" ++ text ++
    "</h" ++ Nat.repr level ++ ">"

/-- renderer.heading of load_file: look the node text up in the freshly
built index by exact title equality, take the first hit's level and id,
and fall back to level 1 and id 1 when nothing matches. -/
def renderer_heading (local_index : List HeadingRecord) (text : String) : String :=
  match local_index.find? (fun item => item.title == text) with
  | some heading => mk_heading heading.level heading.id text
  | none => mk_heading 1 "1" text

/-- A child node of a pre element in the rendered subtree: either a header
bar carrying the code_header_bar class, or a code element tagged with its
element identity. -/
inductive PreChild where
  | header : PreChild
  | code (cid : Nat) : PreChild
deriving DecidableEq, Repr

/-- The identities of the code children of one pre element, in document
order: the snapshot the querySelectorAll of enhance_code_blocks takes
before any header bar is inserted. -/
def code_ids (p : List PreChild) : List Nat :=
  p.filterMap fun n =>
    match n with
    | PreChild.code i => some i
    | PreChild.header => none

/-- Does pre_element.querySelector find a code_header_bar descendant? -/
def has_header_bar (p : List PreChild) : Bool :=
  p.any fun n =>
    match n with
    | PreChild.header => true
    | PreChild.code _ => false

/-- pre_element.insertBefore(header_bar, block): insert a header bar
immediately before the code child with the given identity. -/
def insert_header_before (p : List PreChild) (c : Nat) : List PreChild :=
  match p with
  | [] => []
  | n :: rest =>
    if n = PreChild.code c then PreChild.header :: n :: rest
    else n :: insert_header_before rest c

/-- enhance_code_blocks restricted to one pre element: walk the snapshot of
its code blocks; for each, insert a header bar before it unless the pre
already contains one. Highlighting and the clipboard button have no effect
on the child structure and are not modelled. -/
def enhance_pre (p : List PreChild) : List PreChild :=
  (code_ids p).foldl
    (fun st c => if has_header_bar st then st else insert_header_before st c) p

/-- enhance_code_blocks of Page.vue over the rendered subtree, viewed as
the list of its pre elements; every code block of the document lies in
exactly one pre, so the document loop acts pre by pre. -/
def enhance_code_blocks (doc : List (List PreChild)) : List (List PreChild) :=
  doc.map enhance_pre

/-- The reactive state of Page.vue touched by load_file. -/
structure PageState where
  is_loading : Bool
  err : String
  file_content : String
  rendered_markdown : String
  index : List HeadingRecord
deriving DecidableEq, Repr

/-- Outcome of the awaited fetch: either the await throws (network failure
or unreadable body, reaching the catch block with the thrown message), or
a response arrives with its ok flag and body text. -/
inductive FetchResult where
  | fetchFailed (msg : String) : FetchResult
  | response (ok : Bool) (text : String) : FetchResult
deriving DecidableEq, Repr

/-- The head of load_file, run before the fetch is awaited: raise the
loading flag and clear the error, the raw content and the rendered
markdown. -/
def load_start (st : PageState) : PageState :=
  { st with is_loading := true, err := "", file_content := "",
            rendered_markdown := "" }

/-- The rest of load_file once the fetch settles. A response that is not ok
throws, and every throw lands in the catch block which formats the error
message; the finally block clears the loading flag on every path. On
success the index is rebuilt, the raw text stored and the markdown
rendered through the external marked collaborator, passed here as the
function markedR. -/
def load_finish (markedR : String → List HeadingRecord → String) (st : PageState)
    (res : FetchResult) : PageState :=
  match res with
  | FetchResult.fetchFailed msg =>
    { st with err := "Error: " ++ msg, is_loading := false }
  | FetchResult.response ok text =>
    if ok then
      let local_index := generate_index text
      { st with file_content := text,
                index := local_index,
                rendered_markdown := markedR text local_index,
                is_loading := false }
    else
      { st with err := "Error: Failed to fetch the file", is_loading := false }

/-- load_file of Page.vue, as the reset phase followed by the settled-fetch
phase. -/
def load_file (markedR : String → List HeadingRecord → String) (st : PageState)
    (res : FetchResult) : PageState :=
  load_finish markedR (load_start st) res

/-- Modelled from the spec: the Layout Collapse Controller of section 4.6
has no implementation under src (no collapse state appears in any source
file), so its decision rule is taken from the specification text: collapse
when the content panel's right edge passes the index panel's left edge by
more than the overlap margin, expand when the clearance beyond the content
panel's right edge exceeds the clearance margin, and otherwise keep the
current state. The overlap argument is the signed distance by which the
content panel's right edge passes the index panel's left edge. -/
def collapse_step (overlap_margin clearance_margin : Int) (is_collapsed : Bool)
    (overlap : Int) : Bool :=
  if overlap > overlap_margin then true
  else if -overlap > clearance_margin then false
  else is_collapsed

/-- A sequence of resize recomputations of the collapse controller. -/
def collapse_run (overlap_margin clearance_margin : Int) (s : Bool)
    (overlaps : List Int) : Bool :=
  overlaps.foldl (collapse_step overlap_margin clearance_margin) s

/-! ### Theorems -/

/-- Claim C1: for the markdown input with headings A, B, C at levels
1, 2, 2 and D at level 1, generate_index returns exactly the four records
with ids 1, 1.1, 1.2 and 2, in document order. -/
theorem claim_C1_index_of_example :
    generate_index "# A\n## B\n## C\n# D" =
      [{ id := "1", level := 1, title := "A", is_active := false },
       { id := "1.1", level := 2, title := "B", is_active := false },
       { id := "1.2", level := 2, title := "C", is_active := false },
       { id := "2", level := 1, title := "D", is_active := false }] := by
  decide

/-- Claim C3, counterexample: two distinct elements share the id string 1;
the exit event of the first element empties the working set entirely,
while removal tracked by element identity would keep the second element.
Membership is therefore tracked by the id string, not element identity. -/
theorem claim_C3_counterexample :
    update_visible [⟨⟨1, "1"⟩, true⟩, ⟨⟨2, "1"⟩, true⟩] [⟨⟨1, "1"⟩, false⟩] = [] ∧
    update_visible_by_identity [⟨⟨1, "1"⟩, true⟩, ⟨⟨2, "1"⟩, true⟩]
      [⟨⟨1, "1"⟩, false⟩] = [⟨⟨2, "1"⟩, true⟩] ∧
    update_visible [⟨⟨1, "1"⟩, true⟩, ⟨⟨2, "1"⟩, true⟩] [⟨⟨1, "1"⟩, false⟩] ≠
      update_visible_by_identity [⟨⟨1, "1"⟩, true⟩, ⟨⟨2, "1"⟩, true⟩]
        [⟨⟨1, "1"⟩, false⟩] := by
  decide

/-- Claim C3, amended: on every intersection change event the working set
gains the entering entry and, on exit, loses exactly the entries whose
target id string equals the leaving target's id string — membership is
tracked by the id string, not by element identity. -/
theorem claim_C3_amended_update_membership :
    ∀ (vs : List OEntry) (ev x : OEntry),
      (ev.isIntersecting = true →
        (x ∈ update_visible vs [ev] ↔ x ∈ vs ∨ x = ev)) ∧
      (ev.isIntersecting = false →
        (x ∈ update_visible vs [ev] ↔ x ∈ vs ∧ x.target.id ≠ ev.target.id)) := by
  intro vs ev x
  constructor
  · intro h
    simp [update_visible, h]
  · intro h
    simp [update_visible, h, List.mem_filter, bne_iff_ne]

/-- Witness for the amended claim C3 at a concrete exit event. -/
theorem claim_C3_witness :
    ⟨⟨2, "2"⟩, true⟩ ∈
      update_visible [⟨⟨1, "1"⟩, true⟩, ⟨⟨2, "2"⟩, true⟩] [⟨⟨1, "1"⟩, false⟩] :=
  ((claim_C3_amended_update_membership
      [⟨⟨1, "1"⟩, true⟩, ⟨⟨2, "2"⟩, true⟩] ⟨⟨1, "1"⟩, false⟩
      ⟨⟨2, "2"⟩, true⟩).2 rfl).mpr (by decide)

/-- If a pre element already carries a header bar, the per-code loop of the
enhancer changes nothing. -/
theorem enhance_fold_of_header (l : List Nat) (st : List PreChild)
    (h : has_header_bar st = true) :
    l.foldl (fun st c => if has_header_bar st then st else insert_header_before st c)
      st = st := by
  induction l with
  | nil => rfl
  | cons c cs ih => simpa [h] using ih

theorem code_ids_cons_header (rest : List PreChild) :
    code_ids (PreChild.header :: rest) = code_ids rest := rfl

theorem code_ids_cons_code (i : Nat) (rest : List PreChild) :
    code_ids (PreChild.code i :: rest) = i :: code_ids rest := rfl

theorem has_header_bar_cons_header (rest : List PreChild) :
    has_header_bar (PreChild.header :: rest) = true := rfl

theorem has_header_bar_cons_code (i : Nat) (rest : List PreChild) :
    has_header_bar (PreChild.code i :: rest) = has_header_bar rest := rfl

/-- A leaving code identity that occurs in a cons list but is not its head
occurs in the tail. -/
theorem mem_code_ids_tail (n : PreChild) (rest : List PreChild) (c : Nat)
    (hn : ¬ n = PreChild.code c) (hc : c ∈ code_ids (n :: rest)) :
    c ∈ code_ids rest := by
  cases n with
  | header => rwa [code_ids_cons_header] at hc
  | code i =>
    rw [code_ids_cons_code] at hc
    rcases List.mem_cons.mp hc with h | h
    · exact absurd (by rw [h]) hn
    · exact h

/-- Inserting a header bar before a code block that is present makes the
header-bar check succeed. -/
theorem has_header_bar_insert (p : List PreChild) (c : Nat)
    (hc : c ∈ code_ids p) : has_header_bar (insert_header_before p c) = true := by
  induction p with
  | nil => simp [code_ids] at hc
  | cons n rest ih =>
    by_cases hn : n = PreChild.code c
    · rw [insert_header_before, if_pos hn]
      exact has_header_bar_cons_header _
    · rw [insert_header_before, if_neg hn]
      cases n with
      | header => exact has_header_bar_cons_header _
      | code i =>
        rw [has_header_bar_cons_code]
        exact ih (mem_code_ids_tail _ rest c hn hc)

/-- Inserting a header bar before a present code block adds exactly one
header bar. -/
theorem count_header_insert (p : List PreChild) (c : Nat)
    (hc : c ∈ code_ids p) :
    (insert_header_before p c).count PreChild.header = p.count PreChild.header + 1 := by
  induction p with
  | nil => simp [code_ids] at hc
  | cons n rest ih =>
    by_cases hn : n = PreChild.code c
    · rw [insert_header_before, if_pos hn]
      simp [List.count_cons]
    · rw [insert_header_before, if_neg hn]
      rw [List.count_cons, List.count_cons, ih (mem_code_ids_tail _ rest c hn hc)]
      omega

theorem enhance_pre_of_header (p : List PreChild) (h : has_header_bar p = true) :
    enhance_pre p = p :=
  enhance_fold_of_header _ _ h

theorem enhance_pre_no_code (p : List PreChild) (h : code_ids p = []) :
    enhance_pre p = p := by
  unfold enhance_pre
  rw [h]
  rfl

theorem enhance_pre_inserts (p : List PreChild) (c : Nat) (cs : List Nat)
    (hh : has_header_bar p = false) (hc : code_ids p = c :: cs) :
    enhance_pre p = insert_header_before p c := by
  unfold enhance_pre
  rw [hc, List.foldl_cons, if_neg (by simp [hh])]
  exact enhance_fold_of_header _ _
    (has_header_bar_insert p c (by rw [hc]; exact List.mem_cons_self c cs))

theorem enhance_pre_idem (p : List PreChild) :
    enhance_pre (enhance_pre p) = enhance_pre p := by
  cases hh : has_header_bar p with
  | true => rw [enhance_pre_of_header p hh, enhance_pre_of_header p hh]
  | false =>
    cases hc : code_ids p with
    | nil => rw [enhance_pre_no_code p hc, enhance_pre_no_code p hc]
    | cons c cs =>
      rw [enhance_pre_inserts p c cs hh hc]
      exact enhance_pre_of_header _
        (has_header_bar_insert p c (by rw [hc]; exact List.mem_cons_self c cs))

/-- A pre element with no header bar either has no code block or gains
exactly one header bar. -/
theorem header_bar_iff_count (p : List PreChild) :
    has_header_bar p = false ↔ p.count PreChild.header = 0 := by
  induction p with
  | nil => simp [has_header_bar]
  | cons n rest ih =>
    cases n with
    | header => simp [has_header_bar, List.count_cons]
    | code i =>
      simp only [has_header_bar, List.any_cons, List.count_cons]
      simpa [has_header_bar] using ih

/-- Claim C6: the code-block enhancer is idempotent, and on a freshly
rendered subtree — one code block and no header bar per pre element —
running it twice leaves exactly one header bar per code block, because the
second run detects the existing header bar and skips insertion. -/
theorem claim_C6_enhancer_idempotent :
    ∀ doc : List (List PreChild),
      enhance_code_blocks (enhance_code_blocks doc) = enhance_code_blocks doc ∧
      ∀ p ∈ doc, p.count PreChild.header = 0 → (code_ids p).length = 1 →
        (enhance_pre (enhance_pre p)).count PreChild.header = 1 := by
  intro doc
  constructor
  · unfold enhance_code_blocks
    rw [List.map_map]
    exact List.map_congr_left fun p _ => enhance_pre_idem p
  · intro p _ hcount hlen
    have hh : has_header_bar p = false := (header_bar_iff_count p).mpr hcount
    obtain ⟨c, hc⟩ : ∃ c, code_ids p = [c] := by
      cases hcs : code_ids p with
      | nil => rw [hcs] at hlen; simp at hlen
      | cons c cs =>
        rw [hcs] at hlen
        simp at hlen
        subst hlen
        exact ⟨c, rfl⟩
    rw [enhance_pre_inserts p c [] hh hc,
        enhance_pre_of_header _ (has_header_bar_insert p c (by simp [hc])),
        count_header_insert p c (by simp [hc]), hcount]

/-- Witness for claim C6 on the one-block document. -/
theorem claim_C6_witness :
    enhance_code_blocks (enhance_code_blocks [[PreChild.code 0]]) =
        enhance_code_blocks [[PreChild.code 0]] ∧
      (enhance_pre (enhance_pre [PreChild.code 0])).count PreChild.header = 1 :=
  ⟨(claim_C6_enhancer_idempotent [[PreChild.code 0]]).1,
   (claim_C6_enhancer_idempotent [[PreChild.code 0]]).2 [PreChild.code 0]
     (by decide) (by decide) (by decide)⟩

/-- Claim C7: when the fetch throws or the response is not ok, load_file
stores a human-readable error starting with the word Error, clears the
loading flag, and renders nothing: the raw content and the rendered
markdown stay empty for that load. -/
theorem claim_C7_fetch_error :
    ∀ (markedR : String → List HeadingRecord → String) (st : PageState)
      (res : FetchResult),
      ((∃ msg, res = FetchResult.fetchFailed msg) ∨
        (∃ text, res = FetchResult.response false text)) →
      (load_file markedR st res).err ≠ "" ∧
      (∃ m, (load_file markedR st res).err = "Error: " ++ m) ∧
      (load_file markedR st res).is_loading = false ∧
      (load_file markedR st res).file_content = "" ∧
      (load_file markedR st res).rendered_markdown = "" := by
  intro markedR st res hres
  have hne : ∀ m : String, "Error: " ++ m ≠ "" := by
    intro m h
    have hlen := congrArg String.length h
    rw [String.length_append] at hlen
    have h7 : ("Error: " : String).length = 7 := by decide
    have h0 : ("" : String).length = 0 := by decide
    rw [h7, h0] at hlen
    omega
  rcases hres with ⟨msg, rfl⟩ | ⟨text, rfl⟩
  · exact ⟨hne msg, ⟨msg, rfl⟩, rfl, rfl, rfl⟩
  · exact ⟨hne "Failed to fetch the file", ⟨"Failed to fetch the file", rfl⟩, rfl, rfl, rfl⟩

/-- Witness for claim C7 at a non-ok response. -/
theorem claim_C7_witness :
    (load_file (fun _ _ => "") ⟨false, "", "", "", []⟩
        (FetchResult.response false "body")).err ≠ "" ∧
      (∃ m, (load_file (fun _ _ => "") ⟨false, "", "", "", []⟩
        (FetchResult.response false "body")).err = "Error: " ++ m) ∧
      (load_file (fun _ _ => "") ⟨false, "", "", "", []⟩
        (FetchResult.response false "body")).is_loading = false ∧
      (load_file (fun _ _ => "") ⟨false, "", "", "", []⟩
        (FetchResult.response false "body")).file_content = "" ∧
      (load_file (fun _ _ => "") ⟨false, "", "", "", []⟩
        (FetchResult.response false "body")).rendered_markdown = "" :=
  claim_C7_fetch_error (fun _ _ => "") ⟨false, "", "", "", []⟩
    (FetchResult.response false "body") (Or.inr ⟨"body", rfl⟩)

/-- Claim C10: every call of load_file first resets the error, the raw
content and the rendered markdown to the empty string and raises the
loading flag, leaving only the index from the previous load in place, and
only then consumes the fetch result; so no rendered content or error
message from a previous load is displayed while a load is in flight. -/
theorem claim_C10_load_reset :
    ∀ st : PageState,
      load_start st = { is_loading := true, err := "", file_content := "",
                        rendered_markdown := "", index := st.index } ∧
      ∀ (markedR : String → List HeadingRecord → String) (res : FetchResult),
        load_file markedR st res = load_finish markedR (load_start st) res :=
  fun _ => ⟨rfl, fun _ _ => rfl⟩

/-- Claim C9: the collapse controller collapses only when the overlap
exceeds the overlap margin, expands only when the clearance exceeds the
clearance margin, keeps its state inside the hysteresis band, and on the
overlap sequence 40, -320, 10 ends expanded whenever the collapse margin
is at least 10 and the clearance margin is below 320. -/
theorem claim_C9_collapse_hysteresis :
    ∀ (om cm : Int) (s : Bool) (ov : Int),
      (collapse_step om cm s ov = true → s = true ∨ ov > om) ∧
      (collapse_step om cm s ov = false → s = false ∨ -ov > cm) ∧
      (¬ ov > om → ¬ -ov > cm → collapse_step om cm s ov = s) ∧
      (s = false → ¬ ov > om → collapse_step om cm s ov = false) ∧
      (10 ≤ om → cm < 320 → collapse_run om cm s [40, -320, 10] = false) := by
  intro om cm s ov
  refine ⟨?_, ?_, ?_, ?_, ?_⟩
  · unfold collapse_step
    split_ifs with h1 h2
    · exact fun _ => Or.inr h1
    · intro h
      exact absurd h (by simp)
    · exact fun h => Or.inl h
  · unfold collapse_step
    split_ifs with h1 h2
    · intro h
      exact absurd h (by simp)
    · exact fun _ => Or.inr h2
    · exact fun h => Or.inl h
  · intro h1 h2
    unfold collapse_step
    rw [if_neg h1, if_neg h2]
  · intro hs h1
    subst hs
    unfold collapse_step
    rw [if_neg h1]
    split_ifs <;> rfl
  · intro hom hcm
    simp only [collapse_run, List.foldl, collapse_step]
    split_ifs <;> first | rfl | omega

/-- Witness for claim C9 at concrete margins. -/
theorem claim_C9_witness :
    collapse_step 30 30 true 0 = true ∧
      collapse_run 10 100 true [40, -320, 10] = false :=
  ⟨(claim_C9_collapse_hysteresis 30 30 true 0).2.2.1 (by omega) (by omega),
   (claim_C9_collapse_hysteresis 10 100 true 0).2.2.2.2 (by omega) (by omega)⟩


/-- A head record whose title does not match is skipped by the renderer
lookup. -/
theorem renderer_heading_cons_neg (a : HeadingRecord) (l : List HeadingRecord)
    (text : String) (h : a.title ≠ text) :
    renderer_heading (a :: l) text = renderer_heading l text := by
  unfold renderer_heading
  rw [List.find?_cons_of_neg _ (by simpa using h)]

/-- The renderer lookup returns the record at the first matching
position. -/
theorem renderer_heading_first_aux (text : String) :
    ∀ (idx : List HeadingRecord) (i : Nat) (h : i < idx.length),
      (idx.get ⟨i, h⟩).title = text →
      (∀ r ∈ idx.take i, r.title ≠ text) →
      renderer_heading idx text =
        mk_heading (idx.get ⟨i, h⟩).level (idx.get ⟨i, h⟩).id text := by
  intro idx
  induction idx with
  | nil =>
    intro i h
    exact absurd h (by simp)
  | cons a l ih =>
    intro i h htitle htake
    cases i with
    | zero =>
      unfold renderer_heading
      rw [List.find?_cons_of_pos _ (by simpa using htitle)]
      rfl
    | succ n =>
      have ha : a.title ≠ text := by
        refine htake a ?_
        rw [List.take_succ_cons]
        exact List.mem_cons_self a _
      rw [renderer_heading_cons_neg a l text ha, List.get_cons_succ]
      exact ih n (by simpa using h) (by simpa using htitle)
        (fun r hr => htake r (by rw [List.take_succ_cons]; exact List.mem_cons_of_mem a hr))

/-- Claim C5: for each heading node text, the renderer override uses the
level and id of the first index record whose title exactly equals the
text, and falls back to level 1 and id 1 when no record's title
matches. -/
theorem claim_C5_renderer_first_match :
    ∀ (idx : List HeadingRecord) (text : String),
      ((∀ r ∈ idx, r.title ≠ text) →
        renderer_heading idx text = mk_heading 1 "1" text) ∧
      (∀ (i : Nat) (h : i < idx.length),
        (idx.get ⟨i, h⟩).title = text →
        (∀ r ∈ idx.take i, r.title ≠ text) →
        renderer_heading idx text =
          mk_heading (idx.get ⟨i, h⟩).level (idx.get ⟨i, h⟩).id text) := by
  intro idx text
  constructor
  · intro hall
    unfold renderer_heading
    rw [List.find?_eq_none.mpr (fun r hr => by simpa using hall r hr)]
  · exact fun i h => renderer_heading_first_aux text idx i h

/-- Witness for claim C5: a matching first record and the fallback. -/
theorem claim_C5_witness :
    renderer_heading [{ id := "1", level := 1, title := "T", is_active := false }] "T" =
        mk_heading 1 "1" "T" ∧
      renderer_heading [] "X" = mk_heading 1 "1" "X" :=
  ⟨(claim_C5_renderer_first_match
      [{ id := "1", level := 1, title := "T", is_active := false }] "T").2 0
      (by decide) rfl (by simp),
   (claim_C5_renderer_first_match [] "X").1 (by simp)⟩

theorem all_zero_iff_getD (bs : List Nat) :
    (bs.all fun b => b = 0) = true ↔ ∀ i, bs.getD i 0 = 0 := by
  induction bs with
  | nil => simp
  | cons b bs ih =>
    simp only [List.all_cons, Bool.and_eq_true, decide_eq_true_eq]
    constructor
    · rintro ⟨hb, hall⟩ i
      cases i with
      | zero => simpa using hb
      | succ n => simpa using (ih.mp hall) n
    · intro h
      exact ⟨by simpa using h 0, ih.mpr fun i => by simpa using h (i + 1)⟩

theorem exists_first_nonzero (bs : List Nat)
    (h : (bs.all fun b => b = 0) = false) :
    ∃ i, (∀ j, j < i → bs.getD j 0 = 0) ∧ 0 < bs.getD i 0 := by
  induction bs with
  | nil => simp at h
  | cons b bs ih =>
    by_cases hb : b = 0
    · subst hb
      have h' : (bs.all fun b => b = 0) = false := by simpa using h
      obtain ⟨i, hj, hi⟩ := ih h'
      refine ⟨i + 1, ?_, by simpa using hi⟩
      intro j hj'
      cases j with
      | zero => simp
      | succ m => simpa using hj m (by omega)
    · exact ⟨0, fun j hj => absurd hj (Nat.not_lt_zero j),
        by simpa using Nat.pos_of_ne_zero hb⟩

/-- The comparator answers less exactly when the two id sequences swap to
greater: the comparison is antisymmetric under argument swap. -/
theorem cmpParts_swap (p : List Nat) : ∀ q, cmpParts q p = (cmpParts p q).swap := by
  induction p with
  | nil =>
    intro q
    cases q with
    | nil => rfl
    | cons b bs =>
      simp only [cmpParts]
      split_ifs <;> rfl
  | cons a as ih =>
    intro q
    cases q with
    | nil =>
      simp only [cmpParts]
      split_ifs <;> rfl
    | cons b bs =>
      simp only [cmpParts]
      split_ifs <;> first | rfl | omega | exact ih bs

/-- The comparator answers equal exactly when the two sequences of parts
agree at every position, a missing part counting as 0. -/
theorem cmpParts_eq_iff (p : List Nat) :
    ∀ q, cmpParts p q = Ordering.eq ↔ ∀ i, p.getD i 0 = q.getD i 0 := by
  induction p with
  | nil =>
    intro q
    simp only [cmpParts]
    by_cases h : (q.all fun b => b = 0) = true
    · rw [if_pos h]
      constructor
      · intro _ i
        rw [List.getD_nil]
        exact ((all_zero_iff_getD q).mp h i).symm
      · intro _
        rfl
    · rw [if_neg h]
      constructor
      · intro hc
        exact absurd hc (by decide)
      · intro hall
        refine absurd ((all_zero_iff_getD q).mpr fun i => ?_) h
        rw [← hall i, List.getD_nil]
    | cons a as ih =>
      intro q
      cases q with
      | nil =>
        simp only [cmpParts]
        by_cases h : ((a :: as).all fun b => b = 0) = true
        · rw [if_pos h]
          constructor
          · intro _ i
            rw [List.getD_nil]
            exact (all_zero_iff_getD _).mp h i
          · intro _
            rfl
        · rw [if_neg h]
          constructor
          · intro hc
            exact absurd hc (by decide)
          · intro hall
            refine absurd ((all_zero_iff_getD _).mpr fun i => ?_) h
            rw [hall i, List.getD_nil]
      | cons b bs =>
        simp only [cmpParts]
        split_ifs with h1 h2
        · constructor
          · intro hc
            exact absurd hc (by decide)
          · intro hall
            have := hall 0
            simp at this
            omega
        · constructor
          · intro hc
            exact absurd hc (by decide)
          · intro hall
            have := hall 0
            simp at this
            omega
        · have hab : a = b := by omega
          subst hab
          rw [ih bs]
          constructor
          · intro hall i
            cases i with
            | zero => rfl
            | succ n => simpa using hall n
          · intro hall i
            simpa using hall (i + 1)

/-- The comparator answers less exactly when at the first position where
the sequences differ the left part is smaller. -/
theorem cmpParts_lt_iff (p : List Nat) :
    ∀ q, cmpParts p q = Ordering.lt ↔
      ∃ i, (∀ j, j < i → p.getD j 0 = q.getD j 0) ∧ p.getD i 0 < q.getD i 0 := by
  induction p with
  | nil =>
    intro q
    simp only [cmpParts]
    by_cases h : (q.all fun b => b = 0) = true
    · rw [if_pos h]
      constructor
      · intro hc
        exact absurd hc (by decide)
      · rintro ⟨i, _, hi⟩
        rw [List.getD_nil] at hi
        have := (all_zero_iff_getD q).mp h i
        omega
    · rw [if_neg h]
      constructor
      · intro _
        obtain ⟨i, hj, hi⟩ := exists_first_nonzero q (by simpa using h)
        exact ⟨i, fun j hjlt => by rw [List.getD_nil, hj j hjlt], by
          rw [List.getD_nil]; exact hi⟩
      · intro _
        rfl
  | cons a as ih =>
    intro q
    cases q with
    | nil =>
      simp only [cmpParts]
      constructor
      · intro hc
        split_ifs at hc
      · rintro ⟨i, _, hi⟩
        rw [List.getD_nil] at hi
        omega
    | cons b bs =>
      simp only [cmpParts]
      split_ifs with h1 h2
      · constructor
        · intro _
          exact ⟨0, fun j hj => absurd hj (Nat.not_lt_zero j), by simpa using h1⟩
        · intro _
          rfl
      · constructor
        · intro hc
          exact absurd hc (by decide)
        · rintro ⟨i, hj, hi⟩
          cases i with
          | zero => simp at hi; omega
          | succ n =>
            have := hj 0 (by omega)
            simp at this
            omega
      · have hab : a = b := by omega
        subst hab
        rw [ih bs]
        constructor
        · rintro ⟨i, hj, hi⟩
          exact ⟨i + 1, fun j hjlt => by
            cases j with
            | zero => rfl
            | succ m => simpa using hj m (by omega), by simpa using hi⟩
        · rintro ⟨i, hj, hi⟩
          cases i with
          | zero => simp at hi
          | succ n =>
            exact ⟨n, fun j hjlt => by simpa using hj (j + 1) (by omega),
              by simpa using hi⟩

theorem cmpParts_refl (p : List Nat) : cmpParts p p = Ordering.eq :=
  (cmpParts_eq_iff p p).mpr fun _ => rfl

theorem cmpParts_ne_gt_iff (p q : List Nat) :
    cmpParts p q ≠ Ordering.gt ↔
      (cmpParts p q = Ordering.lt ∨ cmpParts p q = Ordering.eq) := by
  cases h : cmpParts p q <;> simp

/-- Not-greater is transitive for the comparator: the relation the sort of
onIntersectionChange orders by is a total preorder. -/
theorem cmpParts_trans_ne_gt (p q r : List Nat)
    (h1 : cmpParts p q ≠ Ordering.gt) (h2 : cmpParts q r ≠ Ordering.gt) :
    cmpParts p r ≠ Ordering.gt := by
  rw [cmpParts_ne_gt_iff] at h1 h2 ⊢
  rcases h1 with h1 | h1
  · rcases h2 with h2 | h2
    · obtain ⟨i, hji, hi⟩ := (cmpParts_lt_iff p q).mp h1
      obtain ⟨k, hjk, hk⟩ := (cmpParts_lt_iff q r).mp h2
      left
      rw [cmpParts_lt_iff]
      rcases Nat.lt_trichotomy i k with hik | hik | hik
      · exact ⟨i, fun j hj => (hji j hj).trans (hjk j (by omega)),
          by have := hjk i hik; omega⟩
      · subst hik
        exact ⟨i, fun j hj => (hji j hj).trans (hjk j hj), by omega⟩
      · exact ⟨k, fun j hj => (hji j (by omega)).trans (hjk j hj),
          by have := hji k hik; omega⟩
    · left
      obtain ⟨i, hji, hi⟩ := (cmpParts_lt_iff p q).mp h1
      have he := (cmpParts_eq_iff q r).mp h2
      rw [cmpParts_lt_iff]
      exact ⟨i, fun j hj => (hji j hj).trans (he j), by rw [← he i]; exact hi⟩
  · have he := (cmpParts_eq_iff p q).mp h1
    rcases h2 with h2 | h2
    · left
      obtain ⟨i, hji, hi⟩ := (cmpParts_lt_iff q r).mp h2
      rw [cmpParts_lt_iff]
      exact ⟨i, fun j hj => (he j).trans (hji j hj), by rw [he i]; exact hi⟩
    · right
      rw [cmpParts_eq_iff]
      exact fun i => (he i).trans ((cmpParts_eq_iff q r).mp h2 i)

theorem entry_le_iff (a b : OEntry) :
    entry_le a b = true ↔
      cmpParts (id_parts a.target.id) (id_parts b.target.id) ≠ Ordering.gt := by
  unfold entry_le
  cases h : cmpParts (id_parts a.target.id) (id_parts b.target.id) <;> simp

instance : IsTotal OEntry EntryLe :=
  ⟨fun a b => by
    unfold EntryLe
    rw [entry_le_iff, entry_le_iff]
    by_cases h :
        cmpParts (id_parts a.target.id) (id_parts b.target.id) = Ordering.gt
    · right
      rw [cmpParts_swap, h]
      decide
    · left
      exact h⟩

instance : IsTrans OEntry EntryLe :=
  ⟨fun a b c hab hbc => by
    unfold EntryLe at hab hbc ⊢
    rw [entry_le_iff] at hab hbc ⊢
    exact cmpParts_trans_ne_gt _ _ _ hab hbc⟩

theorem entry_le_refl (a : OEntry) : EntryLe a a := by
  unfold EntryLe
  rw [entry_le_iff, cmpParts_refl]
  decide

/-- Claim C2: whenever the working set is non-empty, an entry whose id is
smallest under component-wise integer comparison of the dotted id (missing
trailing components treated as 0) becomes the active heading, and each
record's active flag is rewritten by comparing its id with that entry's
id; whenever the working set is empty, the index is left unchanged. In
particular, with ids 1.2 and 2 both intersecting over the example index,
the record with id 1.2 is resolved active. -/
theorem claim_C2_active_heading_resolution :
    (∀ (idx : List HeadingRecord) (vs : List OEntry),
      (vs = [] → resolve_active vs idx = idx) ∧
      (vs ≠ [] → ∃ a, a ∈ vs ∧ (∀ e ∈ vs, EntryLe a e) ∧
        resolve_active vs idx =
          idx.map fun item =>
            { item with is_active := a.target.id == item.id })) ∧
    resolve_active [⟨⟨1, "1.2"⟩, true⟩, ⟨⟨2, "2"⟩, true⟩]
        (generate_index "# A\n## B\n## C\n# D") =
      [{ id := "1", level := 1, title := "A", is_active := false },
       { id := "1.1", level := 2, title := "B", is_active := false },
       { id := "1.2", level := 2, title := "C", is_active := true },
       { id := "2", level := 1, title := "D", is_active := false }] := by
  constructor
  · intro idx vs
    constructor
    · rintro rfl
      rfl
    · intro hne
      have hsne : sort_visible vs ≠ [] := by
        intro hnil
        exact hne (List.Perm.eq_nil ((List.perm_insertionSort EntryLe vs).symm.trans
          (hnil ▸ List.Perm.refl _)))
      obtain ⟨a, t, hs⟩ : ∃ a t, sort_visible vs = a :: t := by
        cases hsv : sort_visible vs with
        | nil => exact absurd hsv hsne
        | cons a t => exact ⟨a, t, rfl⟩
      have hsorted : List.Sorted EntryLe (sort_visible vs) :=
        List.sorted_insertionSort EntryLe vs
      have hmem : a ∈ vs := by
        rw [← List.mem_insertionSort EntryLe]
        rw [sort_visible] at hs
        rw [hs]
        exact List.mem_cons_self a t
      refine ⟨a, hmem, ?_, ?_⟩
      · intro e he
        have he' : e ∈ sort_visible vs := by
          rw [sort_visible, List.mem_insertionSort]
          exact he
        rw [hs] at he'
        rcases List.mem_cons.mp he' with rfl | he''
        · exact entry_le_refl _
        · rw [hs] at hsorted
          exact List.rel_of_sorted_cons hsorted e he''
      · unfold resolve_active
        rw [hs]
        rfl
  · decide

/-- Witness for claim C2 at the empty working set. -/
theorem claim_C2_witness :
    resolve_active [] [{ id := "1", level := 1, title := "A", is_active := false }] =
      [{ id := "1", level := 1, title := "A", is_active := false }] :=
  (claim_C2_active_heading_resolution.1
    [{ id := "1", level := 1, title := "A", is_active := false }] []).1 rfl


/-- The decimal digits of a number as characters, least significant
first. -/
def reprDigits (n : Nat) : List Char :=
  if n < 10 then [Nat.digitChar n]
  else Nat.digitChar (n % 10) :: reprDigits (n / 10)
decreasing_by exact Nat.div_lt_self (by omega) (by omega)

theorem reprDigits_lt (n : Nat) (h : n < 10) :
    reprDigits n = [Nat.digitChar n] := by
  rw [reprDigits]
  exact if_pos h

theorem reprDigits_ge (n : Nat) (h : ¬ n < 10) :
    reprDigits n = Nat.digitChar (n % 10) :: reprDigits (n / 10) := by
  rw [reprDigits]
  exact if_neg h

/-- The fuelled digit loop of Nat.repr produces the reversed digits when
the fuel exceeds the number. -/
theorem toDigitsCore_eq_reprDigits (n : Nat) :
    ∀ (fuel : Nat) (ds : List Char), n < fuel →
      Nat.toDigitsCore 10 fuel n ds = (reprDigits n).reverse ++ ds := by
  induction n using Nat.strong_induction_on with
  | _ n ih =>
    intro fuel ds hfuel
    cases fuel with
    | zero => omega
    | succ f =>
      simp only [Nat.toDigitsCore]
      by_cases h10 : n < 10
      · have hdiv : n / 10 = 0 := Nat.div_eq_of_lt h10
        simp [hdiv, Nat.mod_eq_of_lt h10, reprDigits_lt n h10]
      · have hdiv1 : 1 ≤ n / 10 := (Nat.one_le_div_iff (by omega)).mpr (by omega)
        have hlt : n / 10 < n := Nat.div_lt_self (by omega) (by omega)
        rw [if_neg (by omega), ih (n / 10) hlt f _ (by omega),
          reprDigits_ge n h10, List.reverse_cons, List.append_assoc]
        rfl

theorem repr_eq_reprDigits (n : Nat) :
    Nat.repr n = ((reprDigits n).reverse).asString := by
  unfold Nat.repr Nat.toDigits
  rw [toDigitsCore_eq_reprDigits n (n + 1) [] (by omega), List.append_nil]

theorem digitChar_isDigit (m : Nat) (h : m < 10) :
    (Nat.digitChar m).isDigit = true := by
  interval_cases m <;> decide

theorem reprDigits_digits (n : Nat) : ∀ c ∈ reprDigits n, c.isDigit = true := by
  induction n using Nat.strong_induction_on with
  | _ n ih =>
    by_cases h10 : n < 10
    · rw [reprDigits_lt n h10]
      intro c hc
      rw [List.mem_singleton] at hc
      subst hc
      exact digitChar_isDigit n h10
    · rw [reprDigits_ge n h10]
      intro c hc
      rcases List.mem_cons.mp hc with rfl | hc'
      · exact digitChar_isDigit _ (Nat.mod_lt n (by omega))
      · exact ih (n / 10) (Nat.div_lt_self (by omega) (by omega)) c hc'

theorem reprDigits_ne_nil (n : Nat) : reprDigits n ≠ [] := by
  by_cases h10 : n < 10
  · rw [reprDigits_lt n h10]
    simp
  · rw [reprDigits_ge n h10]
    simp

theorem digitChar_inj (a b : Nat) (ha : a < 10) (hb : b < 10)
    (h : Nat.digitChar a = Nat.digitChar b) : a = b := by
  interval_cases a <;> interval_cases b <;>
    first | rfl | exact absurd h (by decide)

theorem reprDigits_inj (m : Nat) : ∀ n, reprDigits m = reprDigits n → m = n := by
  induction m using Nat.strong_induction_on with
  | _ m ih =>
    intro n h
    by_cases hm : m < 10 <;> by_cases hn : n < 10
    · rw [reprDigits_lt m hm, reprDigits_lt n hn] at h
      simp at h
      exact digitChar_inj m n hm hn h
    · rw [reprDigits_lt m hm, reprDigits_ge n hn] at h
      simp at h
      exact absurd h.2 (reprDigits_ne_nil _)
    · rw [reprDigits_ge m hm, reprDigits_lt n hn] at h
      simp at h
      exact absurd h.2 (reprDigits_ne_nil _)
    · rw [reprDigits_ge m hm, reprDigits_ge n hn] at h
      simp at h
      have e1 : m % 10 = n % 10 :=
        digitChar_inj _ _ (Nat.mod_lt _ (by omega)) (Nat.mod_lt _ (by omega)) h.1
      have e2 : m / 10 = n / 10 :=
        ih (m / 10) (Nat.div_lt_self (by omega) (by omega)) (n / 10) h.2
      omega

theorem repr_inj (m n : Nat) (h : Nat.repr m = Nat.repr n) : m = n := by
  rw [repr_eq_reprDigits, repr_eq_reprDigits] at h
  have hdata := congrArg String.data h
  simp only [List.asString] at hdata
  exact reprDigits_inj m n (List.reverse_injective hdata)

theorem repr_ne_dot (n : Nat) : ∀ c ∈ (Nat.repr n).data, c ≠ '.' := by
  rw [repr_eq_reprDigits]
  intro c hc hdot
  have hc' : c ∈ reprDigits n := by
    simp only [List.asString] at hc
    exact List.mem_reverse.mp hc
  have hd := reprDigits_digits n c hc'
  subst hdot
  exact absurd hd (by decide)

theorem repr_data_ne_nil (n : Nat) : (Nat.repr n).data ≠ [] := by
  intro h
  rw [repr_eq_reprDigits] at h
  simp only [List.asString] at h
  exact reprDigits_ne_nil n (by simpa using congrArg List.reverse h)

theorem intercalate_go_acc (s : String) :
    ∀ (as : List String) (a b : String),
      String.intercalate.go (a ++ b) s as = a ++ String.intercalate.go b s as := by
  intro as
  induction as with
  | nil =>
    intro a b
    rfl
  | cons c t ih =>
    intro a b
    show String.intercalate.go (a ++ b ++ s ++ c) s t =
      a ++ String.intercalate.go (b ++ s ++ c) s t
    have hassoc : a ++ b ++ s ++ c = a ++ (b ++ s ++ c) := by
      rw [String.append_assoc, String.append_assoc, String.append_assoc]
    rw [hassoc]
    exact ih a (b ++ s ++ c)

theorem intercalate_cons_cons (s a b : String) (t : List String) :
    String.intercalate s (a :: b :: t) = a ++ s ++ String.intercalate s (b :: t) := by
  show String.intercalate.go (a ++ s ++ b) s t = a ++ s ++ String.intercalate.go b s t
  exact intercalate_go_acc s t (a ++ s) b

theorem joinIds_singleton (n : Nat) : joinIds [n] = Nat.repr n := rfl

theorem joinIds_cons_cons (n m : Nat) (t : List Nat) :
    joinIds (n :: m :: t) = Nat.repr n ++ "." ++ joinIds (m :: t) := by
  unfold joinIds
  simp only [List.map_cons]
  exact intercalate_cons_cons "." (Nat.repr n) (Nat.repr m) (t.map Nat.repr)

theorem joinIds_data_ne_nil (l : List Nat) (h : l ≠ []) : (joinIds l).data ≠ [] := by
  cases l with
  | nil => exact absurd rfl h
  | cons n t =>
    cases t with
    | nil =>
      rw [joinIds_singleton]
      exact repr_data_ne_nil n
    | cons m t2 =>
      rw [joinIds_cons_cons, String.data_append, String.data_append]
      intro hnil
      rw [List.append_assoc] at hnil
      exact repr_data_ne_nil n (List.append_eq_nil.mp hnil).1

/-- Dot-free prefixes of equal concatenations agree when the remainders
are empty or start with a dot. -/
theorem dotfree_append_cancel :
    ∀ (xs1 xs2 ys1 ys2 : List Char),
      (∀ c ∈ xs1, c ≠ '.') → (∀ c ∈ xs2, c ≠ '.') →
      (ys1 = [] ∨ ∃ t, ys1 = '.' :: t) → (ys2 = [] ∨ ∃ t, ys2 = '.' :: t) →
      xs1 ++ ys1 = xs2 ++ ys2 → xs1 = xs2 ∧ ys1 = ys2 := by
  intro xs1
  induction xs1 with
  | nil =>
    intro xs2 ys1 ys2 _ hx2 hy1 _ heq
    cases xs2 with
    | nil => exact ⟨rfl, heq⟩
    | cons c r =>
      simp only [List.nil_append, List.cons_append] at heq
      rcases hy1 with rfl | ⟨t, rfl⟩
      · exact absurd heq.symm (by simp)
      · injection heq with h1 _
        exact absurd h1.symm (hx2 c (List.mem_cons_self _ _))
  | cons c1 r1 ih =>
    intro xs2 ys1 ys2 hx1 hx2 hy1 hy2 heq
    cases xs2 with
    | nil =>
      simp only [List.nil_append, List.cons_append] at heq
      rcases hy2 with rfl | ⟨t, rfl⟩
      · exact absurd heq (by simp)
      · injection heq with h1 _
        exact absurd h1 (hx1 c1 (List.mem_cons_self _ _))
    | cons c2 r2 =>
      simp only [List.cons_append] at heq
      injection heq with h1 h2
      subst h1
      obtain ⟨e1, e2⟩ := ih r2 ys1 ys2 (fun c hc => hx1 c (List.mem_cons_of_mem _ hc))
        (fun c hc => hx2 c (List.mem_cons_of_mem _ hc)) hy1 hy2 h2
      exact ⟨by rw [e1], e2⟩

/-- The dotted join of generate_index is injective: distinct part lists
never collide as id strings. -/
theorem joinIds_inj : ∀ l1 l2 : List Nat, joinIds l1 = joinIds l2 → l1 = l2 := by
  intro l1
  induction l1 with
  | nil =>
    intro l2 h
    cases l2 with
    | nil => rfl
    | cons n t =>
      exact absurd (congrArg String.data h).symm
        (joinIds_data_ne_nil (n :: t) (by simp))
  | cons a r1 ih =>
    intro l2 h
    cases l2 with
    | nil =>
      exact absurd (congrArg String.data h)
        (joinIds_data_ne_nil (a :: r1) (by simp))
    | cons b r2 =>
      cases r1 with
      | nil =>
        cases r2 with
        | nil =>
          rw [joinIds_singleton, joinIds_singleton] at h
          rw [repr_inj a b h]
        | cons m2 t2 =>
          rw [joinIds_singleton, joinIds_cons_cons] at h
          have hd := congrArg String.data h
          rw [String.data_append, String.data_append] at hd
          obtain ⟨_, e2⟩ := dotfree_append_cancel (Nat.repr a).data (Nat.repr b).data
            [] ('.' :: (joinIds (m2 :: t2)).data)
            (repr_ne_dot a) (repr_ne_dot b) (Or.inl rfl) (Or.inr ⟨_, rfl⟩)
            (by simpa [List.append_assoc] using hd)
          exact absurd e2.symm (by simp)
      | cons m1 t1 =>
        cases r2 with
        | nil =>
          rw [joinIds_cons_cons, joinIds_singleton] at h
          have hd := congrArg String.data h
          rw [String.data_append, String.data_append] at hd
          obtain ⟨_, e2⟩ := dotfree_append_cancel (Nat.repr a).data (Nat.repr b).data
            ('.' :: (joinIds (m1 :: t1)).data) []
            (repr_ne_dot a) (repr_ne_dot b) (Or.inr ⟨_, rfl⟩) (Or.inl rfl)
            (by simpa [List.append_assoc] using hd)
          exact absurd e2 (by simp)
        | cons m2 t2 =>
          rw [joinIds_cons_cons, joinIds_cons_cons] at h
          have hd := congrArg String.data h
          rw [String.data_append, String.data_append, String.data_append,
            String.data_append] at hd
          obtain ⟨e1, e2⟩ := dotfree_append_cancel (Nat.repr a).data (Nat.repr b).data
            ('.' :: (joinIds (m1 :: t1)).data) ('.' :: (joinIds (m2 :: t2)).data)
            (repr_ne_dot a) (repr_ne_dot b) (Or.inr ⟨_, rfl⟩) (Or.inr ⟨_, rfl⟩)
            (by simpa [List.append_assoc] using hd)
          injection e2 with _ e3
          rw [repr_inj a b (String.ext e1), ih (m2 :: t2) (String.ext e3)]

/-- The six counter slots a part list occupies once padded with zeros:
after a heading of level d, the counter array equals the padded id parts
of that heading. -/
def pad6 (p : List Nat) : List Nat := p ++ List.replicate (6 - p.length) 0

/-- Strict lexicographic comparison of counter arrays. -/
abbrev LexLT (p q : List Nat) : Prop := List.Lex (· < ·) p q

theorem lex_append_left (pre : List Nat) {l1 l2 : List Nat} (h : LexLT l1 l2) :
    LexLT (pre ++ l1) (pre ++ l2) := by
  induction pre with
  | nil => exact h
  | cons c t ih => exact List.Lex.cons ih

/-- Bumping a counter slot strictly increases the counter array in the
lexicographic order. -/
theorem lex_bump (l : List Nat) (n m : Nat) (hn : n < l.length) :
    LexLT l ((l.take n ++ [l.getD n 0 + 1]) ++ List.replicate m 0) := by
  conv_lhs => rw [← List.take_append_drop n l]
  rw [List.append_assoc]
  apply lex_append_left
  rw [List.getD_eq_getElem _ _ hn, List.drop_eq_getElem_cons hn]
  exact List.Lex.rel (Nat.lt_succ_self _)

theorem parse_heading_bounds (line : String) (level : Nat) (title : String)
    (h : parse_heading line = some (level, title)) : 1 ≤ level ∧ level ≤ 6 := by
  simp only [parse_heading] at h
  split_ifs at h with hc
  · simp only [Option.some.injEq, Prod.mk.injEq] at h
    obtain ⟨hl, _⟩ := h
    subst hl
    exact ⟨hc.1, hc.2.1⟩

theorem scan_step_some (st : List Nat × List HeadingRecord) (line : String)
    (level : Nat) (title : String) (hp : parse_heading line = some (level, title)) :
    scan_step st line = (bump_levels st.1 level,
      st.2 ++ [{ id := joinIds ((bump_levels st.1 level).take level),
                 level := level, title := title, is_active := false }]) := by
  unfold scan_step
  rw [hp]

theorem scan_step_none (st : List Nat × List HeadingRecord) (line : String)
    (hp : parse_heading line = none) : scan_step st line = st := by
  unfold scan_step
  rw [hp]

/-- The invariant the line scan of generate_index maintains: the counter
array keeps its six slots; the emitted id strings are the dotted joins of
a list of part lists whose padded forms increase strictly in the
lexicographic order and never exceed the current counter array; every
emitted record is inactive and its id joins exactly level many parts, the
last one positive. -/
def ScanInv (st : List Nat × List HeadingRecord) : Prop :=
  st.1.length = 6 ∧
  ∃ pl : List (List Nat),
    st.2.map HeadingRecord.id = pl.map joinIds ∧
    pl.Pairwise (fun p q => LexLT (pad6 p) (pad6 q)) ∧
    (∀ p ∈ pl, LexLT (pad6 p) st.1 ∨ pad6 p = st.1) ∧
    (∀ r ∈ st.2, r.is_active = false) ∧
    (∀ r ∈ st.2, ∃ (init : List Nat) (k : Nat), 0 < k ∧ 1 ≤ r.level ∧ r.level ≤ 6 ∧
      (init ++ [k]).length = r.level ∧ r.id = joinIds (init ++ [k]))

theorem scan_step_inv (st : List Nat × List HeadingRecord) (line : String)
    (h : ScanInv st) : ScanInv (scan_step st line) := by
  cases hp : parse_heading line with
  | none =>
    rw [scan_step_none st line hp]
    exact h
  | some pair =>
    obtain ⟨level, title⟩ := pair
    obtain ⟨h1, h6⟩ := parse_heading_bounds line level title hp
    rw [scan_step_some st line level title hp]
    obtain ⟨hlen, pl, hmap, hpair, hle, hact, hshape⟩ := h
    have hlt1 : level - 1 < st.1.length := by omega
    have htklen : (st.1.take (level - 1)).length = level - 1 := by
      rw [List.length_take, hlen]
      exact min_eq_left (by omega)
    have hbump : bump_levels st.1 level =
        (st.1.take (level - 1) ++ [st.1.getD (level - 1) 0 + 1]) ++
          List.replicate (6 - level) 0 := by
      unfold bump_levels
      rw [hlen]
    have hAlen : (st.1.take (level - 1) ++ [st.1.getD (level - 1) 0 + 1]).length =
        level := by
      rw [List.length_append, htklen]
      simp
      omega
    have hblen : (bump_levels st.1 level).length = 6 := by
      rw [hbump, List.length_append, hAlen, List.length_replicate]
      omega
    have htake : (bump_levels st.1 level).take level =
        st.1.take (level - 1) ++ [st.1.getD (level - 1) 0 + 1] := by
      rw [hbump, List.take_append_of_le_length (by rw [hAlen])]
      exact List.take_of_length_le (by rw [hAlen])
    have hpad : pad6 ((bump_levels st.1 level).take level) =
        bump_levels st.1 level := by
      unfold pad6
      rw [htake, hAlen, hbump]
    have hlex : LexLT st.1 (bump_levels st.1 level) := by
      rw [hbump]
      exact lex_bump st.1 (level - 1) (6 - level) hlt1
    refine ⟨hblen, pl ++ [(bump_levels st.1 level).take level], ?_, ?_, ?_, ?_, ?_⟩
    · rw [List.map_append, List.map_append, hmap]
      rfl
    · rw [List.pairwise_append]
      refine ⟨hpair, List.pairwise_singleton _ _, ?_⟩
      intro p hpmem q hq
      rw [List.mem_singleton] at hq
      subst hq
      rw [hpad]
      rcases hle p hpmem with hlt | heq
      · exact IsTrans.trans _ _ _ hlt hlex
      · rw [heq]
        exact hlex
    · intro p hp'
      rcases List.mem_append.mp hp' with hmem | hmem
      · left
        rcases hle p hmem with hlt | heq
        · exact IsTrans.trans _ _ _ hlt hlex
        · rw [heq]
          exact hlex
      · rw [List.mem_singleton] at hmem
        subst hmem
        right
        exact hpad
    · intro r hr
      rcases List.mem_append.mp hr with hmem | hmem
      · exact hact r hmem
      · rw [List.mem_singleton] at hmem
        subst hmem
        rfl
    · intro r hr
      rcases List.mem_append.mp hr with hmem | hmem
      · exact hshape r hmem
      · rw [List.mem_singleton] at hmem
        subst hmem
        refine ⟨st.1.take (level - 1), st.1.getD (level - 1) 0 + 1, by omega, h1, h6,
          ?_, ?_⟩
        · rw [List.length_append, htklen]
          simp
          omega
        · rw [htake]

theorem foldl_scan_inv (lines : List String) :
    ∀ st, ScanInv st → ScanInv (lines.foldl scan_step st) := by
  induction lines with
  | nil =>
    intro st h
    exact h
  | cons l t ih =>
    intro st h
    exact ih _ (scan_step_inv st l h)

theorem scan_init_inv : ScanInv ([0, 0, 0, 0, 0, 0], []) := by
  refine ⟨rfl, [], rfl, List.Pairwise.nil, ?_, ?_, ?_⟩ <;> simp

theorem generate_index_inv (md : String) :
    ScanInv (((js_split '\n' md.toList).map String.mk).foldl scan_step
      ([0, 0, 0, 0, 0, 0], [])) :=
  foldl_scan_inv _ _ scan_init_inv

/-- The id strings of one generated index never collide: the counter
array strictly increases at every emitted heading, so the padded part
lists are strictly increasing and their dotted joins are pairwise
distinct. -/
theorem generate_index_ids_nodup (md : String) :
    ((generate_index md).map HeadingRecord.id).Nodup := by
  obtain ⟨_, pl, hmap, hpair, _, _, _⟩ := generate_index_inv md
  unfold generate_index
  rw [hmap]
  refine List.Nodup.map (fun x y hxy => joinIds_inj x y hxy) ?_
  exact hpair.imp fun {p q} hlt heq => by
    subst heq
    exact absurd hlt (IsIrrefl.irrefl _)

theorem generate_index_inactive (md : String) :
    ∀ r ∈ generate_index md, r.is_active = false := by
  obtain ⟨_, _, _, _, _, hact, _⟩ := generate_index_inv md
  unfold generate_index
  exact hact

theorem generate_index_id_shape (md : String) :
    ∀ r ∈ generate_index md,
      ∃ (init : List Nat) (k : Nat), 0 < k ∧ 1 ≤ r.level ∧ r.level ≤ 6 ∧
        (init ++ [k]).length = r.level ∧ r.id = joinIds (init ++ [k]) := by
  obtain ⟨_, _, _, _, _, _, hshape⟩ := generate_index_inv md
  unfold generate_index
  exact hshape

/-- Claim C4, counterexample: on the markdown consisting of one level-2
heading before any level-1 heading, the generated id is 0.1, whose first
component is 0 — not a dot-separated sequence of positive integers. -/
theorem claim_C4_counterexample :
    (generate_index "## B").map HeadingRecord.id = ["0.1"] ∧
    ¬ ∀ r ∈ generate_index "## B", ∃ parts : List Nat,
        (∀ x ∈ parts, 0 < x) ∧ parts.length = r.level ∧
        r.id = joinIds parts := by
  refine ⟨by decide, ?_⟩
  intro hall
  have hmem : ({ id := "0.1", level := 2, title := "B", is_active := false } :
      HeadingRecord) ∈ generate_index "## B" := by decide
  obtain ⟨parts, hpos, _, hid⟩ := hall _ hmem
  have h01 : joinIds [0, 1] = "0.1" := by decide
  have hparts : parts = [0, 1] :=
    joinIds_inj parts [0, 1] (hid.symm.trans h01.symm)
  subst hparts
  exact absurd (hpos 0 (by decide)) (by decide)

/-- Claim C4, amended: every HeadingRecord produced by the Heading Indexer
has an id that is a dot-separated sequence of nonnegative integers with
exactly level components (level between 1 and 6) whose last component is
positive; when a heading of depth d appears before any heading of a
shallower depth, the components of the missing shallower levels are 0
rather than positive. -/
theorem claim_C4_amended_id_shape :
    ∀ (md : String) (r : HeadingRecord), r ∈ generate_index md →
      ∃ (init : List Nat) (k : Nat), 0 < k ∧ 1 ≤ r.level ∧ r.level ≤ 6 ∧
        (init ++ [k]).length = r.level ∧ r.id = joinIds (init ++ [k]) :=
  fun md r hr => generate_index_id_shape md r hr

/-- Witness for the amended claim C4 on a one-heading document. -/
theorem claim_C4_witness :
    ∃ (init : List Nat) (k : Nat), 0 < k ∧
      1 ≤ (⟨"1", 1, "A", false⟩ : HeadingRecord).level ∧
      (⟨"1", 1, "A", false⟩ : HeadingRecord).level ≤ 6 ∧
      (init ++ [k]).length = (⟨"1", 1, "A", false⟩ : HeadingRecord).level ∧
      (⟨"1", 1, "A", false⟩ : HeadingRecord).id = joinIds (init ++ [k]) :=
  claim_C4_amended_id_shape "# A" ⟨"1", 1, "A", false⟩ (by decide)

/-- A non-empty working set sorts to a list whose head came from the
working set. -/
theorem sort_visible_head (vs : List OEntry) (hne : vs ≠ []) :
    ∃ a t, sort_visible vs = a :: t ∧ a ∈ vs := by
  cases hsv : sort_visible vs with
  | nil =>
    refine absurd (List.Perm.eq_nil ?_) hne
    have hperm := List.perm_insertionSort EntryLe vs
    rw [sort_visible] at hsv
    rw [hsv] at hperm
    exact hperm.symm
  | cons a t =>
    refine ⟨a, t, rfl, ?_⟩
    rw [← List.mem_insertionSort EntryLe]
    rw [sort_visible] at hsv
    rw [hsv]
    exact List.mem_cons_self a t

theorem resolve_active_cons_sorted (vs : List OEntry) (idx : List HeadingRecord)
    (a : OEntry) (t : List OEntry) (hs : sort_visible vs = a :: t) :
    resolve_active vs idx =
      idx.map fun item => { item with is_active := a.target.id == item.id } := by
  unfold resolve_active
  rw [hs]
  rfl

theorem countP_eq_one_of_nodup_mem (l : List String) (aid : String)
    (hnd : l.Nodup) (hm : aid ∈ l) : l.countP (fun s => s == aid) = 1 := by
  induction l with
  | nil => simp at hm
  | cons x xs ih =>
    rw [List.countP_cons]
    rcases List.mem_cons.mp hm with heq | hm'
    · subst heq
      have hx : ¬ aid ∈ xs := (List.nodup_cons.mp hnd).1
      have h0 : xs.countP (fun s => s == aid) = 0 := by
        rw [List.countP_eq_zero]
        intro s hs
        simp only [beq_iff_eq]
        intro heq2
        subst heq2
        exact hx hs
      rw [h0, if_pos (beq_self_eq_true aid)]
    · have hx : ¬ (x == aid) = true :=
        fun hc => (List.nodup_cons.mp hnd).1 (beq_iff_eq.mp hc ▸ hm')
      rw [ih (List.nodup_cons.mp hnd).2 hm', if_neg hx]

/-- Claim C8, counterexample: the renderer emits the fallback id 1 for a
heading node whose text matches no index title, and on the document with a
single level-2 heading the index holds the id 0.1 only; a resolution with
the non-empty working set holding that fallback element marks zero records
active, not exactly one. -/
theorem claim_C8_counterexample :
    (generate_index "## B").map HeadingRecord.id = ["0.1"] ∧
    renderer_heading (generate_index "## B") "Intro" = mk_heading 1 "1" "Intro" ∧
    ([⟨⟨1, "1"⟩, true⟩] : List OEntry) ≠ [] ∧
    (resolve_active [⟨⟨1, "1"⟩, true⟩] (generate_index "## B")).countP
      (fun r => r.is_active) = 0 := by
  decide

/-- Claim C8, amended: every record of a fresh index is inactive before
the first observation. After a resolution performed with a non-empty
working set whose element ids all occur in the index, exactly one record
is active — the ids of one generated index are pairwise distinct, so the
id comparison marks exactly one record. When no working-set id occurs in
the index — reachable through the renderer fallback id 1 for an unmatched
title — resolution leaves zero records active. -/
theorem claim_C8_active_invariant :
    ∀ md : String,
      (∀ r ∈ generate_index md, r.is_active = false) ∧
      (∀ vs : List OEntry, vs ≠ [] →
        (∀ e ∈ vs, e.target.id ∈ (generate_index md).map HeadingRecord.id) →
        (resolve_active vs (generate_index md)).countP
          (fun r => r.is_active) = 1) ∧
      (∀ vs : List OEntry,
        (∀ e ∈ vs, e.target.id ∉ (generate_index md).map HeadingRecord.id) →
        (resolve_active vs (generate_index md)).countP
          (fun r => r.is_active) = 0) := by
  intro md
  refine ⟨generate_index_inactive md, ?_, ?_⟩
  · intro vs hne hsub
    obtain ⟨a, t, hs, hmem⟩ := sort_visible_head vs hne
    rw [resolve_active_cons_sorted vs (generate_index md) a t hs, List.countP_map]
    have hcomp : ((fun r : HeadingRecord => r.is_active) ∘
        (fun item : HeadingRecord =>
          { item with is_active := a.target.id == item.id })) =
        fun item : HeadingRecord => a.target.id == item.id := rfl
    rw [hcomp]
    have h2 : List.countP (fun item : HeadingRecord => a.target.id == item.id)
        (generate_index md) =
        List.countP (fun s => s == a.target.id)
          ((generate_index md).map HeadingRecord.id) := by
      rw [List.countP_map]
      refine List.countP_congr fun r _ => ?_
      simp only [Function.comp]
      rw [beq_iff_eq, beq_iff_eq]
      exact eq_comm
    rw [h2]
    exact countP_eq_one_of_nodup_mem _ _ (generate_index_ids_nodup md) (hsub a hmem)
  · intro vs hnone
    by_cases hne : vs = []
    · subst hne
      have hres : resolve_active [] (generate_index md) = generate_index md := rfl
      rw [hres, List.countP_eq_zero]
      intro r hr
      rw [generate_index_inactive md r hr]
      decide
    · obtain ⟨a, t, hs, hmem⟩ := sort_visible_head vs hne
      rw [resolve_active_cons_sorted vs (generate_index md) a t hs,
        List.countP_map]
      have hcomp : ((fun r : HeadingRecord => r.is_active) ∘
          (fun item : HeadingRecord =>
            { item with is_active := a.target.id == item.id })) =
          fun item : HeadingRecord => a.target.id == item.id := rfl
      rw [hcomp, List.countP_eq_zero]
      intro r hr hc
      exact hnone a hmem
        (List.mem_map.mpr ⟨r, hr, (beq_iff_eq.mp hc).symm⟩)

/-- Witness for the amended claim C8 on a one-heading document: a
working-set id drawn from the index marks exactly one record active, and
one foreign to the index marks none. -/
theorem claim_C8_witness :
    (∀ r ∈ generate_index "# A", r.is_active = false) ∧
    (resolve_active [⟨⟨1, "1"⟩, true⟩] (generate_index "# A")).countP
      (fun r => r.is_active) = 1 ∧
    (resolve_active [⟨⟨2, "9"⟩, true⟩] (generate_index "# A")).countP
      (fun r => r.is_active) = 0 :=
  ⟨(claim_C8_active_invariant "# A").1,
   (claim_C8_active_invariant "# A").2.1 [⟨⟨1, "1"⟩, true⟩] (by decide) (by decide),
   (claim_C8_active_invariant "# A").2.2 [⟨⟨2, "9"⟩, true⟩] (by decide)⟩
